import Mathlib

set_option maxHeartbeats 1000000

attribute [local semireducible] Rat.add Rat.sub Rat.mul Rat.inv Rat.ofScientific

/-!
Verification development for the momentum trading script
`SEPH-GHAFARZADEH-FINAL.py`.

The script is a single-pass pandas pipeline:
prices → percentage-change returns → premiums (return − risk-free) →
rolling compounded formation returns (windows 5/30/60/90/120) →
holding returns (formation shifted back by the holding window) →
cross-sectional ranks (descending, pandas default `average` tie method,
NaN kept) → long/short masks → equal-weighted long-short daily return
series → cumulative returns → a 9-row performance summary table.

Missing values (pandas `NaN`) are modelled as `none : Option ℚ`;
all arithmetic is over `ℚ`.  Dates are `ℕ` indices `0 .. T-1`;
instruments are `Fin N`.
-/

/-- Input data of one run: `T` dates, `N` instruments, the (forward-filled)
stock price table, the market index price series and the risk-free series. -/
structure MarketData where
  T : ℕ
  N : ℕ
  price : Fin N → ℕ → Option ℚ
  snp : ℕ → Option ℚ
  rf : ℕ → Option ℚ

/-- Pandas `pct_change`: `p(t)/p(t-1) - 1`, missing on the first row, when a
neighbouring price is missing, and (like float `0/0 = NaN`) when the previous
price is zero. -/
def pctChange (p : ℕ → Option ℚ) (t : ℕ) : Option ℚ :=
  if t = 0 then none
  else
    match p (t - 1), p t with
    | some a, some b => if a = 0 then none else some (b / a - 1)
    | _, _ => none

/-- Elementwise subtraction of two possibly-missing values (NaN propagates). -/
def osub : Option ℚ → Option ℚ → Option ℚ
  | some a, some b => some (a - b)
  | _, _ => none

/-- Per-instrument simple returns, `stock_rets = stock_prices.pct_change()`. -/
def stock_rets (d : MarketData) (i : Fin d.N) (t : ℕ) : Option ℚ :=
  pctChange (d.price i) t

/-- Market index returns, `snp_rets = snp_prices.pct_change()`. -/
def snp_rets (d : MarketData) (t : ℕ) : Option ℚ :=
  pctChange d.snp t

/-- Market premium `snp_rets['spindx'] - risk_free['rf']`. -/
def market_premium (d : MarketData) (t : ℕ) : Option ℚ :=
  osub (snp_rets d t) (d.rf t)

/-- Per-instrument premium `stock_rets[ticker] - risk_free['rf']`. -/
def stock_premium (d : MarketData) (i : Fin d.N) (t : ℕ) : Option ℚ :=
  osub (stock_rets d i t) (d.rf t)

/-- Collect `[f 0, …, f (n-1)]` when all entries are present, otherwise `none`. -/
def optSeq (f : ℕ → Option ℚ) : ℕ → Option (List ℚ)
  | 0 => some []
  | n + 1 =>
    match optSeq f n, f n with
    | some l, some x => some (l ++ [x])
    | _, _ => none

/-- Pandas `rolling(w).apply(g, raw = True)` with the default
`min_periods = w`: at row `t` the window is the `w` rows ending at `t`
(in ascending date order); the result is missing while fewer than `w` rows
exist or whenever one of them is missing. -/
def rollingApply (w : ℕ) (g : List ℚ → ℚ) (f : ℕ → Option ℚ) (t : ℕ) : Option ℚ :=
  if t + 1 < w then none
  else (optSeq (fun k => f (t + 1 - w + k)) w).map g

/-- The lambda of the script: `(1 + r).prod() - 1`. -/
def compound (l : List ℚ) : ℚ :=
  (l.map (fun r => 1 + r)).prod - 1

/-- Formation return table `form[w]`: rolling compounded premium growth. -/
def formTable (w : ℕ) (d : MarketData) (i : Fin d.N) (t : ℕ) : Option ℚ :=
  rollingApply w compound (stock_premium d i) t

/-- Holding return table `hpr[w] = form[w].shift(-w)`: row `t` receives the
formation value of row `t + w`; the last `w` rows of the index are missing. -/
def hprTable (w : ℕ) (d : MarketData) (i : Fin d.N) (t : ℕ) : Option ℚ :=
  if t + w < d.T then formTable w d i (t + w) else none

/-- One date's cross-section of a formation table. -/
def formRow (w : ℕ) (d : MarketData) (t : ℕ) (i : Fin d.N) : Option ℚ :=
  formTable w d i t

/-- One date's cross-section of a holding table. -/
def hprRow (w : ℕ) (d : MarketData) (t : ℕ) (i : Fin d.N) : Option ℚ :=
  hprTable w d i t

/-- Does the option hold a value strictly greater than `x`?  (False for NaN.) -/
def isSomeGt (x : ℚ) : Option ℚ → Bool
  | some y => decide (x < y)
  | none => false

/-- Does the option hold exactly the value `x`?  (False for NaN.) -/
def isSomeEq (x : ℚ) : Option ℚ → Bool
  | some y => decide (x = y)
  | none => false

/-- Number of instruments whose value is strictly greater than `x`. -/
def gtCnt {n : ℕ} (v : Fin n → Option ℚ) (x : ℚ) : ℕ :=
  (Finset.univ.filter (fun j => isSomeGt x (v j) = true)).card

/-- Number of instruments whose value equals `x` (the instrument itself included). -/
def eqCnt {n : ℕ} (v : Fin n → Option ℚ) (x : ℚ) : ℕ :=
  (Finset.univ.filter (fun j => isSomeEq x (v j) = true)).card

/-- Pandas `rank(axis = 1, ascending = False)` with its default `average` tie
method and `na_option = 'keep'`: a missing value gets no rank; a present value
`x` gets `#(strictly greater) + (#(equal) + 1)/2`, the average of the ordinal
positions its tie group occupies. -/
def rankAt {n : ℕ} (v : Fin n → Option ℚ) (i : Fin n) : Option ℚ :=
  (v i).map (fun x => (gtCnt v x : ℚ) + ((eqCnt v x : ℚ) + 1) / 2)

/-- Number of instruments with a present (non-missing) value on a date. -/
def definedCnt {n : ℕ} (v : Fin n → Option ℚ) : ℕ :=
  (Finset.univ.filter (fun i => (v i).isSome = true)).card

/-- Maximum of a list of rationals, `none` on the empty list. -/
def listMaxQ : List ℚ → Option ℚ
  | [] => none
  | x :: xs => some (xs.foldl max x)

/-- The present values of a cross-sectional row, in column order. -/
def rowVals {n : ℕ} (row : Fin n → Option ℚ) : List ℚ :=
  ((List.finRange n).map row).filterMap id

/-- Pandas row-wise `.max(axis = 1)` (skipna): maximum of the present values. -/
def maxRow {n : ℕ} (row : Fin n → Option ℚ) : Option ℚ :=
  listMaxQ (rowVals row)

/-- Rank table of formation window `F` (`f5_ranks`, `f30_ranks`, `f90_ranks`). -/
def rankTable (F : ℕ) (d : MarketData) (t : ℕ) (i : Fin d.N) : Option ℚ :=
  rankAt (formRow F d t) i

/-- Row maximum of the rank table (`f5_max`, `f30_max`, `f90_max`). -/
def maxRankTable (F : ℕ) (d : MarketData) (t : ℕ) : Option ℚ :=
  maxRow (fun i => rankTable F d t i)

/-- Long-side mask `ranks <= 5` (False on a missing rank, as for NaN). -/
def longMask (F : ℕ) (d : MarketData) (t : ℕ) (i : Fin d.N) : Bool :=
  match rankTable F d t i with
  | some r => decide (r ≤ 5)
  | none => false

/-- The boolean table `ranks.eq(max - 5, axis = 0)`: True exactly where the
rank equals the row maximum minus 5. -/
def eqMask (F : ℕ) (d : MarketData) (t : ℕ) (i : Fin d.N) : Bool :=
  match rankTable F d t i, maxRankTable F d t with
  | some r, some m => decide (r = m - 5)
  | _, _ => false

/-- Short-side mask `ranks >= ranks.eq(max - 5, axis = 0)`: the comparison is
against the boolean table, i.e. against `1` where `eqMask` holds and `0`
elsewhere (False on a missing rank, as for NaN). -/
def shortMask (F : ℕ) (d : MarketData) (t : ℕ) (i : Fin d.N) : Bool :=
  match rankTable F d t i with
  | some r => decide ((if eqMask F d t i then (1 : ℚ) else 0) ≤ r)
  | none => false

/-- Pandas `df[mask]`: keep a cell where the mask holds, NaN elsewhere. -/
def maskedRow {n : ℕ} (mask : Fin n → Bool) (row : Fin n → Option ℚ) (i : Fin n) :
    Option ℚ :=
  if mask i then row i else none

/-- Row reduction `(c * r).sum()`: scale each cell by `c` and sum, skipping
missing cells; an all-missing row sums to `0`. -/
def rowSum {n : ℕ} (c : ℚ) (row : Fin n → Option ℚ) : ℚ :=
  ∑ i, ((row i).map (fun x => c * x)).getD 0

/-- Daily long-short portfolio return for formation window `F` and holding
window `H` (the series `fFhprH` of the script): `0.2` times the masked
long-side holding sum plus `-0.2` times the masked short-side holding sum. -/
def dailyRet (F H : ℕ) (d : MarketData) (t : ℕ) : ℚ :=
  rowSum 0.2 (maskedRow (longMask F d t) (hprRow H d t)) +
    rowSum (-0.2) (maskedRow (shortMask F d t) (hprRow H d t))

/-- Running product `f 0 * f 1 * ⋯ * f t` (pandas `cumprod`). -/
def cumprodSeq (f : ℕ → ℚ) : ℕ → ℚ
  | 0 => f 0
  | t + 1 => cumprodSeq f t * f (t + 1)

/-- Cumulative return series `(1 + daily).cumprod() - 1`. -/
def cumRets (daily : ℕ → ℚ) (t : ℕ) : ℚ :=
  cumprodSeq (fun s => 1 + daily s) t - 1

/-- Mean of a full series, `np.average` over all `T` dates. -/
def avgRet (T : ℕ) (f : ℕ → ℚ) : ℚ :=
  (∑ t ∈ Finset.range T, f t) / (T : ℚ)

/-- Pandas `Series.mean()` (skipna): mean of the present values among the
first `T` entries, missing when none is present. -/
def meanOpt (T : ℕ) (f : ℕ → Option ℚ) : Option ℚ :=
  match ((List.range T).map f).filterMap id with
  | [] => none
  | l => some (l.sum / (l.length : ℚ))

/-- The benchmark scalar `market_premium.mean()`. -/
def marketMean (d : MarketData) : Option ℚ :=
  meanOpt d.T (market_premium d)

/-- The nine (formation, holding) window pairs in the script's row order. -/
def stratPairs : Fin 9 → ℕ × ℕ :=
  ![(5, 5), (5, 60), (5, 120), (30, 5), (30, 60), (30, 120),
    (90, 5), (90, 60), (90, 120)]

/-- Daily return series of strategy number `i` of the summary table. -/
def portSeries (d : MarketData) (i : Fin 9) : ℕ → ℚ :=
  dailyRet (stratPairs i).1 (stratPairs i).2 d

/-- Column `port avg rets`: average daily return of each strategy. -/
def portAvg (d : MarketData) (i : Fin 9) : ℚ :=
  avgRet d.T (portSeries d i)

/-- Column `snp avg rets`: the market-premium mean, repeated in all 9 rows. -/
def snpCol (d : MarketData) (i : Fin 9) : Option ℚ :=
  marketMean d

/-- Column `port diff = port avg rets - snp avg rets` (missing propagates). -/
def portDiff (d : MarketData) (i : Fin 9) : Option ℚ :=
  osub (some (portAvg d i)) (snpCol d i)

/-- The ordinal rank a present value would get when all present values of the
row are pairwise distinct: one plus the number of strictly greater values. -/
def natRankOf {n : ℕ} (v : Fin n → Option ℚ) (i : Fin n) : ℕ :=
  gtCnt v ((v i).getD 0) + 1

/-- Price path of the 7-instrument example: flat at `1` through date 4, then
flat at `1 + i/10` through date 9; from date 10 instrument `0` doubles to `2`
while the others stay flat. -/
def exPrice (i : Fin 7) (t : ℕ) : ℚ :=
  if t ≤ 4 then 1
  else if t ≤ 9 then 1 + (i.val : ℚ) / 10
  else if i.val = 0 then 2 else 1 + (i.val : ℚ) / 10

/-- Concrete dataset A: 7 instruments over 11 dates, zero risk-free rate.
On date 5 the formation-5 returns are the distinct values `i/10`, and the
5-day holding returns opened on date 5 are `1` for instrument `0` and `0`
for every other instrument. -/
def exAC : MarketData where
  T := 11
  N := 7
  price := fun i t => some (exPrice i t)
  snp := fun _ => some 1
  rf := fun _ => some 0

/-- Concrete dataset B: 2 instruments over 6 dates, both with constant price
`1` and zero risk-free rate, so their formation returns tie at `0`. -/
def exTie : MarketData where
  T := 6
  N := 2
  price := fun _ _ => some 1
  snp := fun _ => some 1
  rf := fun _ => some 0

/-- Concrete dataset C: 1 instrument over 2 dates with constant price `1`,
a nonzero risk-free rate `1/10` on date 1, and a doubling market index. -/
def exRf : MarketData where
  T := 2
  N := 1
  price := fun _ _ => some 1
  snp := fun t => some ((t : ℚ) + 1)
  rf := fun t => some (if t = 0 then 0 else 1 / 10)

/-- Instrument `0` of dataset A. -/
def ac0 : Fin exAC.N := ⟨0, by decide⟩

/-- Instrument `1` of dataset A. -/
def ac1 : Fin exAC.N := ⟨1, by decide⟩

/-- Instrument `6` of dataset A (the top performer on date 5). -/
def ac6 : Fin exAC.N := ⟨6, by decide⟩

/-- Instrument `0` of dataset B. -/
def tie0 : Fin exTie.N := ⟨0, by decide⟩

/-- Instrument `1` of dataset B. -/
def tie1 : Fin exTie.N := ⟨1, by decide⟩

/-- The only instrument of dataset C. -/
def rf0 : Fin exRf.N := ⟨0, by decide⟩

/-- Modelled from the spec: the long bucket of the specification,
`\x7bi : rank(t,i) ≤ K\x7d` with `K = 5` (identical to the code's mask). -/
def specLongSet (F : ℕ) (d : MarketData) (t : ℕ) : Finset (Fin d.N) :=
  Finset.univ.filter (fun i => longMask F d t i = true)

/-- Modelled from the spec: membership in the short bucket as the
specification words it, `rank(t,i) ≥ maxRank(t) − K` with `K = 5`. -/
def specShortMem (F : ℕ) (d : MarketData) (t : ℕ) (i : Fin d.N) : Bool :=
  match rankTable F d t i, maxRankTable F d t with
  | some r, some m => decide (m - 5 ≤ r)
  | _, _ => false

/-- Modelled from the spec: the short bucket of the specification. -/
def specShortSet (F : ℕ) (d : MarketData) (t : ℕ) : Finset (Fin d.N) :=
  Finset.univ.filter (fun i => specShortMem F d t i = true)

/-- Modelled from the spec: the claimed daily portfolio return
`(1/K)·Σ_long holding − (1/|short|)·Σ_short holding` with `K = 5`. -/
def specDailyC1 (F H : ℕ) (d : MarketData) (t : ℕ) : ℚ :=
  (1 / 5) * (∑ i ∈ specLongSet F d t, (hprRow H d t i).getD 0) -
    (1 / ((specShortSet F d t).card : ℚ)) *
      (∑ i ∈ specShortSet F d t, (hprRow H d t i).getD 0)

/-! ### Helper lemmas about the ranking routine -/

/-- A present value's tie group contains the instrument itself. -/
theorem one_le_eqCnt {n : ℕ} {v : Fin n → Option ℚ} {i : Fin n} {x : ℚ}
    (h : v i = some x) : 1 ≤ eqCnt v x := by
  apply Finset.one_le_card.mpr
  exact ⟨i, by simp [Finset.mem_filter, h, isSomeEq]⟩

/-- Every assigned rank is at least `1`. -/
theorem rankAt_one_le {n : ℕ} {v : Fin n → Option ℚ} {i : Fin n} {r : ℚ}
    (h : rankAt v i = some r) : 1 ≤ r := by
  unfold rankAt at h
  cases hv : v i with
  | none => rw [hv] at h; simp at h
  | some x =>
    rw [hv, Option.map_some'] at h
    have hr : (gtCnt v x : ℚ) + ((eqCnt v x : ℚ) + 1) / 2 = r := Option.some.inj h
    have h1 : (1 : ℚ) ≤ (eqCnt v x : ℚ) := by exact_mod_cast one_le_eqCnt hv
    have h0 : (0 : ℚ) ≤ (gtCnt v x : ℚ) := by positivity
    linarith

/-- A rank is assigned exactly to the instruments with a present value. -/
theorem isSome_of_rank {n : ℕ} {v : Fin n → Option ℚ} {i : Fin n} {r : ℚ}
    (h : rankAt v i = some r) : (v i).isSome = true := by
  unfold rankAt at h
  cases hv : v i with
  | none => rw [hv] at h; simp at h
  | some x => rfl

/-- The short-side mask of the script degenerates: comparing a rank against
the boolean table `ranks.eq(max - 5, axis = 0)` compares it against `0` or
`1`, and every assigned rank is at least `1`, so the mask holds exactly on
the instruments that have a rank at all. -/
theorem shortMask_eq_isSome (F : ℕ) (d : MarketData) (t : ℕ) (i : Fin d.N) :
    shortMask F d t i = (rankTable F d t i).isSome := by
  unfold shortMask
  cases h : rankTable F d t i with
  | none => simp
  | some r =>
    have hr : 1 ≤ r := rankAt_one_le (v := formRow F d t) (i := i) h
    simp only [Option.isSome_some]
    split
    · exact decide_eq_true (by linarith)
    · exact decide_eq_true (by linarith)

/-- When the present values of a row are pairwise distinct, every tie group
is a singleton. -/
theorem eqCnt_of_inj {n : ℕ} {v : Fin n → Option ℚ}
    (hd : ∀ i j : Fin n, (v i).isSome = true → v i = v j → i = j)
    {i : Fin n} {x : ℚ} (h : v i = some x) : eqCnt v x = 1 := by
  unfold eqCnt
  have hset : Finset.univ.filter (fun j => isSomeEq x (v j) = true) = {i} := by
    ext j
    simp only [Finset.mem_filter, Finset.mem_univ, true_and, Finset.mem_singleton]
    constructor
    · intro hj
      cases hvj : v j with
      | none => rw [hvj] at hj; simp [isSomeEq] at hj
      | some y =>
        rw [hvj] at hj
        simp only [isSomeEq, decide_eq_true_eq] at hj
        subst hj
        exact hd j i (by rw [hvj]; rfl) (by rw [hvj, h])
    · intro hj
      subst hj
      simp [h, isSomeEq]
  rw [hset, Finset.card_singleton]

/-- Under pairwise-distinct values the average rank collapses to the ordinal
rank `#(greater) + 1`. -/
theorem rankAt_of_inj {n : ℕ} {v : Fin n → Option ℚ}
    (hd : ∀ i j : Fin n, (v i).isSome = true → v i = v j → i = j)
    {i : Fin n} {x : ℚ} (h : v i = some x) :
    rankAt v i = some ((gtCnt v x : ℚ) + 1) := by
  unfold rankAt
  rw [h, Option.map_some']
  congr 1
  rw [eqCnt_of_inj hd h]
  norm_num

/-- A strictly larger present value has a strictly smaller greater-count. -/
theorem gtCnt_lt_gtCnt {n : ℕ} {v : Fin n → Option ℚ} {i j : Fin n} {x y : ℚ}
    (hx : v i = some x) (hy : v j = some y) (hxy : x < y) :
    gtCnt v y < gtCnt v x := by
  unfold gtCnt
  have hsub : (Finset.univ.filter fun z => isSomeGt y (v z) = true) ⊆
      (Finset.univ.filter fun z => isSomeGt x (v z) = true) := by
    intro z hz
    simp only [Finset.mem_filter, Finset.mem_univ, true_and] at hz ⊢
    revert hz
    cases hvz : v z with
    | none => intro hz; simp [isSomeGt] at hz
    | some w =>
      intro hz
      simp only [isSomeGt, decide_eq_true_eq] at hz ⊢
      linarith
  apply Finset.card_lt_card
  rw [Finset.ssubset_iff_of_subset hsub]
  refine ⟨j, ?_, ?_⟩
  · simp only [Finset.mem_filter, Finset.mem_univ, true_and]
    rw [hy]
    simp [isSomeGt, hxy]
  · simp only [Finset.mem_filter, Finset.mem_univ, true_and]
    rw [hy]
    simp [isSomeGt]

/-- The greater-count of a present value is below the number of present
values (the instrument itself is present but not greater than itself). -/
theorem gtCnt_lt_definedCnt {n : ℕ} {v : Fin n → Option ℚ} {i : Fin n} {x : ℚ}
    (h : v i = some x) : gtCnt v x < definedCnt v := by
  unfold gtCnt definedCnt
  have hsub : (Finset.univ.filter fun z => isSomeGt x (v z) = true) ⊆
      (Finset.univ.filter fun z => (v z).isSome = true) := by
    intro z hz
    simp only [Finset.mem_filter, Finset.mem_univ, true_and] at hz ⊢
    revert hz
    cases hvz : v z with
    | none => intro hz; simp [isSomeGt] at hz
    | some w => intro hz; rfl
  apply Finset.card_lt_card
  rw [Finset.ssubset_iff_of_subset hsub]
  refine ⟨i, ?_, ?_⟩
  · simp only [Finset.mem_filter, Finset.mem_univ, true_and]
    rw [h]
    rfl
  · simp only [Finset.mem_filter, Finset.mem_univ, true_and]
    rw [h]
    simp [isSomeGt]

/-- Under pairwise-distinct values the rank of a present instrument is its
ordinal rank, cast to `ℚ`. -/
theorem rankAt_eq_natRank {n : ℕ} {v : Fin n → Option ℚ}
    (hd : ∀ i j : Fin n, (v i).isSome = true → v i = v j → i = j)
    {i : Fin n} (h : (v i).isSome = true) :
    rankAt v i = some ((natRankOf v i : ℚ)) := by
  cases hv : v i with
  | none => rw [hv] at h; simp at h
  | some x =>
    rw [rankAt_of_inj hd hv]
    unfold natRankOf
    rw [hv]
    simp only [Option.getD_some]
    push_cast
    ring_nf

/-- Under pairwise-distinct values the ordinal rank is injective on the
present instruments. -/
theorem natRankOf_inj {n : ℕ} {v : Fin n → Option ℚ}
    (hd : ∀ i j : Fin n, (v i).isSome = true → v i = v j → i = j)
    {i j : Fin n} (hi : (v i).isSome = true) (hj : (v j).isSome = true)
    (hij : natRankOf v i = natRankOf v j) : i = j := by
  cases hvi : v i with
  | none => rw [hvi] at hi; simp at hi
  | some x =>
    cases hvj : v j with
    | none => rw [hvj] at hj; simp at hj
    | some y =>
      unfold natRankOf at hij
      rw [hvi, hvj] at hij
      simp only [Option.getD_some] at hij
      rcases lt_trichotomy x y with hlt | heq | hgt
      · have := gtCnt_lt_gtCnt hvi hvj hlt
        omega
      · subst heq
        exact hd i j (by rw [hvi]; rfl) (by rw [hvi, hvj])
      · have := gtCnt_lt_gtCnt hvj hvi hgt
        omega

/-- Under pairwise-distinct values the ordinal ranks of the present
instruments are exactly the integers `1 .. definedCnt v`. -/
theorem image_natRankOf {n : ℕ} {v : Fin n → Option ℚ}
    (hd : ∀ i j : Fin n, (v i).isSome = true → v i = v j → i = j) :
    (Finset.univ.filter fun i => (v i).isSome = true).image (natRankOf v) =
      Finset.Icc 1 (definedCnt v) := by
  apply Finset.eq_of_subset_of_card_le
  · intro m hm
    simp only [Finset.mem_image, Finset.mem_filter, Finset.mem_univ, true_and] at hm
    obtain ⟨i, hi, rfl⟩ := hm
    simp only [Finset.mem_Icc]
    constructor
    · unfold natRankOf
      omega
    · cases hv : v i with
      | none => rw [hv] at hi; simp at hi
      | some x =>
        have hlt := gtCnt_lt_definedCnt (v := v) hv
        unfold natRankOf
        rw [hv]
        simp only [Option.getD_some]
        omega
  · rw [Nat.card_Icc, Finset.card_image_of_injOn]
    · unfold definedCnt
      omega
    · intro i hi j hj hij
      simp only [Finset.coe_filter, Finset.mem_univ, true_and, Set.mem_setOf_eq] at hi hj
      exact natRankOf_inj hd hi hj hij

/-! ### Helper lemmas about row maxima, rolling windows and row sums -/

/-- The seed is a lower bound of a left fold of `max`. -/
theorem le_foldl_max (l : List ℚ) (a : ℚ) : a ≤ l.foldl max a := by
  induction l generalizing a with
  | nil => simp
  | cons x xs ih =>
    simp only [List.foldl_cons]
    exact le_trans (le_max_left a x) (ih (max a x))

/-- Every member of the list is a lower bound of a left fold of `max`. -/
theorem mem_le_foldl_max (l : List ℚ) : ∀ (a x : ℚ), x ∈ l → x ≤ l.foldl max a := by
  induction l with
  | nil => intro a x h; simp at h
  | cons y ys ih =>
    intro a x h
    simp only [List.foldl_cons]
    rcases List.mem_cons.mp h with rfl | h'
    · exact le_trans (le_max_right a x) (le_foldl_max ys (max a x))
    · exact ih (max a y) x h'

/-- A left fold of `max` is bounded by any common upper bound. -/
theorem foldl_max_le (l : List ℚ) :
    ∀ (a m : ℚ), a ≤ m → (∀ x ∈ l, x ≤ m) → l.foldl max a ≤ m := by
  induction l with
  | nil => intro a m ha _; simpa using ha
  | cons y ys ih =>
    intro a m ha h
    simp only [List.foldl_cons]
    exact ih (max a y) m (max_le ha (h y (List.mem_cons_self y ys)))
      (fun x hx => h x (List.mem_cons_of_mem y hx))

/-- The maximum of a list is any member that bounds the whole list. -/
theorem listMaxQ_eq_some {l : List ℚ} {m : ℚ} (hm : m ∈ l)
    (hub : ∀ x ∈ l, x ≤ m) : listMaxQ l = some m := by
  cases l with
  | nil => simp at hm
  | cons x xs =>
    show some (xs.foldl max x) = some m
    have hfold : xs.foldl max x = m := by
      apply le_antisymm
      · exact foldl_max_le xs x m (hub x (List.mem_cons_self x xs))
          (fun z hz => hub z (List.mem_cons_of_mem x hz))
      · rcases List.mem_cons.mp hm with rfl | h
        · exact le_foldl_max xs m
        · exact mem_le_foldl_max xs x m h
    rw [hfold]

/-- Membership in the present values of a row. -/
theorem mem_rowVals {n : ℕ} {row : Fin n → Option ℚ} {x : ℚ} :
    x ∈ rowVals row ↔ ∃ i, row i = some x := by
  unfold rowVals
  constructor
  · intro h
    obtain ⟨o, ho, hox⟩ := List.mem_filterMap.mp h
    obtain ⟨i, _, rfl⟩ := List.mem_map.mp ho
    exact ⟨i, hox⟩
  · rintro ⟨i, h⟩
    exact List.mem_filterMap.mpr ⟨row i, List.mem_map.mpr ⟨i, List.mem_finRange i, rfl⟩, h⟩

/-- A masked, scaled, NaN-skipping row sum is the scalar times the plain sum
of the present values over the mask's support. -/
theorem rowSum_maskedRow {n : ℕ} (c : ℚ) (mask : Fin n → Bool)
    (row : Fin n → Option ℚ) :
    rowSum c (maskedRow mask row) =
      c * ∑ i ∈ Finset.univ.filter (fun i => mask i = true), (row i).getD 0 := by
  unfold rowSum maskedRow
  rw [Finset.mul_sum, Finset.sum_filter]
  apply Finset.sum_congr rfl
  intro i _
  cases hm : mask i with
  | true =>
    simp only [hm, if_true]
    cases hr : row i with
    | none => simp
    | some x => simp
  | false => simp [hm]

/-- A fully present window collects into the mapped range list. -/
theorem optSeq_eq_some (f : ℕ → Option ℚ) (g : ℕ → ℚ) :
    ∀ n, (∀ k, k < n → f k = some (g k)) →
      optSeq f n = some ((List.range n).map g) := by
  intro n
  induction n with
  | zero => intro _; rfl
  | succ m ih =>
    intro h
    unfold optSeq
    rw [ih (fun k hk => h k (Nat.lt_succ_of_lt hk)), h m (Nat.lt_succ_self m)]
    rw [List.range_succ, List.map_append]
    rfl

/-- A window with a missing entry collects to nothing. -/
theorem optSeq_eq_none (f : ℕ → Option ℚ) {k : ℕ} :
    ∀ n, k < n → f k = none → optSeq f n = none := by
  intro n
  induction n with
  | zero => intro hk _; omega
  | succ m ih =>
    intro hk hfk
    unfold optSeq
    rcases Nat.lt_succ_iff_lt_or_eq.mp hk with h | rfl
    · rw [ih h hfk]
    · rw [hfk]
      cases optSeq f k <;> rfl

/-- The product over a mapped range list is the finite product. -/
theorem map_range_prod (g : ℕ → ℚ) :
    ∀ n, ((List.range n).map g).prod = ∏ k ∈ Finset.range n, g k := by
  intro n
  induction n with
  | zero => rfl
  | succ m ih =>
    rw [List.range_succ, List.map_append, List.prod_append,
      Finset.prod_range_succ, ih]
    simp

/-- The running product equals the finite product over an initial segment. -/
theorem cumprodSeq_eq_prod (f : ℕ → ℚ) :
    ∀ t, cumprodSeq f t = ∏ s ∈ Finset.range (t + 1), f s := by
  intro t
  induction t with
  | zero => simp [cumprodSeq]
  | succ m ih =>
    rw [Finset.prod_range_succ, ← ih]
    rfl

/-- Under pairwise-distinct present values, the row maximum of the rank row
is the number of present instruments. -/
theorem maxRank_of_inj {n : ℕ} (v : Fin n → Option ℚ)
    (hd : ∀ i j : Fin n, (v i).isSome = true → v i = v j → i = j)
    (hpos : 0 < definedCnt v) :
    maxRow (fun i => rankAt v i) = some ((definedCnt v : ℚ)) := by
  have hmem : definedCnt v ∈
      (Finset.univ.filter fun i => (v i).isSome = true).image (natRankOf v) := by
    rw [image_natRankOf hd]
    exact Finset.mem_Icc.mpr ⟨hpos, le_refl _⟩
  obtain ⟨i, hi, hri⟩ := Finset.mem_image.mp hmem
  have hi' := (Finset.mem_filter.mp hi).2
  unfold maxRow
  apply listMaxQ_eq_some
  · rw [mem_rowVals]
    exact ⟨i, by rw [rankAt_eq_natRank hd hi', hri]⟩
  · intro x hx
    obtain ⟨j, hj⟩ := mem_rowVals.mp hx
    have hjs := isSome_of_rank hj
    rw [rankAt_eq_natRank hd hjs] at hj
    rw [← Option.some.inj hj]
    have hb : natRankOf v j ≤ definedCnt v := by
      cases hvj : v j with
      | none => rw [hvj] at hjs; simp at hjs
      | some y =>
        have hlt := gtCnt_lt_definedCnt (v := v) hvj
        unfold natRankOf
        rw [hvj]
        simp only [Option.getD_some]
        omega
    exact_mod_cast hb

/-! ### Claims -/

/-- C1 (corrected): at every date the daily portfolio return equals `0.2`
times the sum of the present holding returns over the long bucket
(ranks ≤ 5) minus `0.2` times the sum of the present holding returns over
all instruments that have a rank at all — the short-side weight is the
constant `0.2`, not `1/|short|`, and the short side degenerates to every
ranked instrument because the script compares ranks against the boolean
table `ranks.eq(max - 5, axis = 0)`. -/
theorem C1_amended (F H : ℕ) (d : MarketData) (t : ℕ) :
    dailyRet F H d t =
      0.2 * (∑ i ∈ Finset.univ.filter (fun i => longMask F d t i = true),
          (hprRow H d t i).getD 0) -
        0.2 * (∑ i ∈ Finset.univ.filter
            (fun i => (rankTable F d t i).isSome = true),
          (hprRow H d t i).getD 0) := by
  unfold dailyRet
  rw [rowSum_maskedRow, rowSum_maskedRow]
  have hfil : (Finset.univ.filter fun i => shortMask F d t i = true) =
      (Finset.univ.filter fun i => (rankTable F d t i).isSome = true) := by
    apply Finset.filter_congr
    intro i _
    simp [shortMask_eq_isSome]
  rw [hfil]
  ring

/-- C1 (counterexample): on dataset A at date 5 the script's daily return is
`-1/5` while the claimed formula `(1/5)·Σ_long − (1/|short|)·Σ_short` with
the claimed short bucket `rank ≥ max − 5` gives `-1/6`. -/
theorem C1_cex :
    dailyRet 5 5 exAC 5 = -(1 / 5) ∧ specDailyC1 5 5 exAC 5 = -(1 / 6) ∧
      (-(1 / 5) : ℚ) ≠ -(1 / 6) := by
  refine ⟨by decide, by decide, by norm_num⟩

/-- C2 (corrected): the short-side mask of the script holds exactly on the
instruments whose formation return is present (equivalently, that have a
rank), not only on those with rank ≥ maxRank − 5; the bucket can therefore
contain every ranked instrument. -/
theorem C2_amended (F : ℕ) (d : MarketData) (t : ℕ) (i : Fin d.N) :
    shortMask F d t i = (formRow F d t i).isSome := by
  rw [shortMask_eq_isSome]
  unfold rankTable rankAt
  cases formRow F d t i <;> rfl

/-- C2 (counterexample): on dataset A at date 5 (seven ranked instruments,
max rank 7) the code's short bucket contains the rank-1 instrument although
`1 ≥ 7 - 5` fails, and it has 7 members, more than the claimed bound of 6. -/
theorem C2_cex :
    shortMask 5 exAC 5 ac6 = true ∧ rankTable 5 exAC 5 ac6 = some 1 ∧
      maxRankTable 5 exAC 5 = some 7 ∧ ¬((7 : ℚ) - 5 ≤ 1) ∧
      (Finset.univ.filter fun i => shortMask 5 exAC 5 i = true).card = 7 := by
  refine ⟨by decide, by decide, by decide, by norm_num, by decide⟩

/-- Under pairwise-distinct present values, the ranks restricted to present
instruments are a permutation of `1 .. definedCnt v`, and missing values
receive no rank. -/
theorem rank_perm_of_inj {n : ℕ} (v : Fin n → Option ℚ)
    (hd : ∀ i j : Fin n, (v i).isSome = true → v i = v j → i = j) :
    (∀ i, v i = none → rankAt v i = none) ∧
    (∀ i x, v i = some x → ∃ m : ℕ, 1 ≤ m ∧ m ≤ definedCnt v ∧
      rankAt v i = some ((m : ℚ))) ∧
    (∀ m : ℕ, 1 ≤ m → m ≤ definedCnt v → ∃! i, rankAt v i = some ((m : ℚ))) := by
  refine ⟨?_, ?_, ?_⟩
  · intro i h
    unfold rankAt
    rw [h]
    rfl
  · intro i x h
    refine ⟨natRankOf v i, ?_, ?_, ?_⟩
    · unfold natRankOf
      omega
    · have hlt := gtCnt_lt_definedCnt (v := v) h
      unfold natRankOf
      rw [h]
      simp only [Option.getD_some]
      omega
    · exact rankAt_eq_natRank hd (by rw [h]; rfl)
  · intro m h1 hm
    have hmem : m ∈
        (Finset.univ.filter fun i => (v i).isSome = true).image (natRankOf v) := by
      rw [image_natRankOf hd]
      exact Finset.mem_Icc.mpr ⟨h1, hm⟩
    obtain ⟨i, hi, hri⟩ := Finset.mem_image.mp hmem
    have hi' := (Finset.mem_filter.mp hi).2
    refine ⟨i, ?_, ?_⟩
    · show rankAt v i = some ((m : ℚ))
      rw [rankAt_eq_natRank hd hi', hri]
    · intro j hj
      have hjs := isSome_of_rank hj
      have hj' := rankAt_eq_natRank hd hjs
      rw [hj] at hj'
      have hcast : (m : ℚ) = (natRankOf v j : ℚ) := Option.some.inj hj'
      have hnat : natRankOf v j = natRankOf v i := by
        have hm' : natRankOf v j = m := by exact_mod_cast hcast.symm
        omega
      exact natRankOf_inj hd hjs hi' hnat

/-- C3 (corrected): the script's `rank` call uses the pandas default
`average` tie method, not ordinal ranking: with ties the ranks are
fractional and not a permutation.  When the present formation returns on a
date are pairwise distinct, the ranks are a permutation of
`1 .. definedCnt`, and instruments with a missing formation return never
receive a rank. -/
theorem C3_amended (F : ℕ) (d : MarketData) (t : ℕ)
    (hd : ∀ i j : Fin d.N, (formRow F d t i).isSome = true →
      formRow F d t i = formRow F d t j → i = j) :
    (∀ i, formRow F d t i = none → rankTable F d t i = none) ∧
    (∀ i x, formRow F d t i = some x → ∃ m : ℕ, 1 ≤ m ∧
      m ≤ definedCnt (formRow F d t) ∧ rankTable F d t i = some ((m : ℚ))) ∧
    (∀ m : ℕ, 1 ≤ m → m ≤ definedCnt (formRow F d t) →
      ∃! i, rankTable F d t i = some ((m : ℚ))) :=
  rank_perm_of_inj (formRow F d t) hd

/-- C3 (witness): on dataset A at date 5 the seven formation returns are
pairwise distinct, so the theorem applies. -/
theorem C3_amended_w :
    (∀ i, formRow 5 exAC 5 i = none → rankTable 5 exAC 5 i = none) ∧
      (∀ i x, formRow 5 exAC 5 i = some x → ∃ m : ℕ, 1 ≤ m ∧
        m ≤ definedCnt (formRow 5 exAC 5) ∧ rankTable 5 exAC 5 i = some ((m : ℚ))) ∧
      (∀ m : ℕ, 1 ≤ m → m ≤ definedCnt (formRow 5 exAC 5) →
        ∃! i, rankTable 5 exAC 5 i = some ((m : ℚ))) :=
  C3_amended 5 exAC 5 (by decide)

/-- C3 (counterexample): on dataset B both instruments have the same
formation return at date 5, both get the fractional rank `3/2`, and no
instrument gets rank `1` although two instruments are ranked — the ranks
are not a permutation of `1 .. maxRank`. -/
theorem C3_cex :
    rankTable 5 exTie 5 tie0 = some (3 / 2) ∧
      rankTable 5 exTie 5 tie1 = some (3 / 2) ∧
      definedCnt (formRow 5 exTie 5) = 2 ∧
      ¬∃ i : Fin exTie.N, rankTable 5 exTie 5 i = some 1 := by
  refine ⟨by decide, by decide, by decide, by decide⟩

/-- C4 (confirmed): for any window `w`, the formation return at a date `t`
with `w` consecutive present premium observations ending at `t` is the
product of `1 + premium` over the window minus `1`; with insufficient
history or a missing observation in the window it is missing, never zero. -/
theorem C4_formation (d : MarketData) (w : ℕ) (i : Fin d.N) (t : ℕ) :
    (∀ g : ℕ → ℚ, w ≤ t + 1 →
      (∀ k, k < w → stock_premium d i (t - k) = some (g k)) →
      formTable w d i t = some ((∏ k ∈ Finset.range w, (1 + g k)) - 1)) ∧
    (w ≤ t + 1 → (∃ k, k < w ∧ stock_premium d i (t - k) = none) →
      formTable w d i t = none) ∧
    (t + 1 < w → formTable w d i t = none) := by
  refine ⟨?_, ?_, ?_⟩
  · intro g hw h
    unfold formTable rollingApply
    rw [if_neg (by omega)]
    have hwin : ∀ k, k < w →
        (fun k => stock_premium d i (t + 1 - w + k)) k = some (g (w - 1 - k)) := by
      intro k hk
      show stock_premium d i (t + 1 - w + k) = some (g (w - 1 - k))
      have e : t + 1 - w + k = t - (w - 1 - k) := by omega
      rw [e]
      exact h (w - 1 - k) (by omega)
    rw [optSeq_eq_some _ (fun k => g (w - 1 - k)) w hwin]
    simp only [Option.map_some']
    congr 1
    unfold compound
    rw [List.map_map, map_range_prod]
    congr 1
    exact Finset.prod_range_reflect (fun k => 1 + g k) w
  · rintro hw ⟨k, hk, hnone⟩
    unfold formTable rollingApply
    rw [if_neg (by omega)]
    have hidx : (fun k' => stock_premium d i (t + 1 - w + k')) (w - 1 - k) = none := by
      show stock_premium d i (t + 1 - w + (w - 1 - k)) = none
      have e : t + 1 - w + (w - 1 - k) = t - k := by omega
      rw [e]
      exact hnone
    have hn := optSeq_eq_none (fun k' => stock_premium d i (t + 1 - w + k'))
      w (show w - 1 - k < w by omega) hidx
    rw [hn]
    rfl
  · intro hlt
    unfold formTable rollingApply
    rw [if_pos hlt]

/-- C4 (witness): on dataset A, instrument 1 has the premium window
`[0, 0, 0, 0, 1/10]` ending at date 5; at date 4 the window includes the
first date, whose return is missing, so the formation value is missing. -/
theorem C4_formation_w :
    formTable 5 exAC ac1 5 =
        some ((∏ k ∈ Finset.range 5, (1 + (if k = 0 then (1 / 10 : ℚ) else 0))) - 1) ∧
      formTable 5 exAC ac1 4 = none ∧ formTable 5 exAC ac1 3 = none :=
  ⟨(C4_formation exAC 5 ac1 5).1 (fun k => if k = 0 then (1 / 10 : ℚ) else 0)
      (by omega) (by decide),
    (C4_formation exAC 5 ac1 4).2.1 (by omega) ⟨4, by omega, by decide⟩,
    (C4_formation exAC 5 ac1 3).2.2 (by omega)⟩

/-- C5 (confirmed): the holding return at `t` for window `H` is the
formation return for window `H` at `t + H` whenever `t + H` is inside the
date index, and is missing on the last `H` dates of the index. -/
theorem C5_holding (H : ℕ) (d : MarketData) (i : Fin d.N) (t : ℕ) :
    (t + H < d.T → hprTable H d i t = formTable H d i (t + H)) ∧
    (d.T ≤ t + H → hprTable H d i t = none) := by
  constructor
  · intro h
    unfold hprTable
    rw [if_pos h]
  · intro h
    unfold hprTable
    rw [if_neg (by omega)]

/-- C5 (witness): on dataset A (11 dates), the 5-day holding return opened
on date 0 is the formation value of date 5, and date 7 has none. -/
theorem C5_holding_w :
    hprTable 5 exAC ac1 0 = formTable 5 exAC ac1 5 ∧
      hprTable 5 exAC ac1 7 = none :=
  ⟨(C5_holding 5 exAC ac1 0).1 (by decide), (C5_holding 5 exAC ac1 7).2 (by decide)⟩

/-- C6 (confirmed): every portfolio's cumulative return series satisfies the
compounding recurrence after the first date and equals the running product
of `1 + daily` minus one. -/
theorem C6_cumulative (F H : ℕ) (d : MarketData) (t : ℕ) :
    cumRets (dailyRet F H d) (t + 1) =
        (1 + cumRets (dailyRet F H d) t) * (1 + dailyRet F H d (t + 1)) - 1 ∧
      cumRets (dailyRet F H d) t =
        (∏ s ∈ Finset.range (t + 1), (1 + dailyRet F H d s)) - 1 := by
  constructor
  · show cumprodSeq (fun s => 1 + dailyRet F H d s) t * (1 + dailyRet F H d (t + 1)) - 1 =
      (1 + (cumprodSeq (fun s => 1 + dailyRet F H d s) t - 1)) *
        (1 + dailyRet F H d (t + 1)) - 1
    ring
  · unfold cumRets
    rw [cumprodSeq_eq_prod]

/-- C7 (corrected): with ties at the bottom of the ranking the row maximum of
the average-method ranks is fractional and smaller than the count of ranked
instruments; when at least one instrument is ranked and the present formation
returns are pairwise distinct, the row maximum equals the count. -/
theorem C7_amended (F : ℕ) (d : MarketData) (t : ℕ)
    (hd : ∀ i j : Fin d.N, (formRow F d t i).isSome = true →
      formRow F d t i = formRow F d t j → i = j)
    (hpos : 0 < definedCnt (formRow F d t)) :
    maxRankTable F d t = some ((definedCnt (formRow F d t) : ℚ)) :=
  maxRank_of_inj (formRow F d t) hd hpos

/-- C7 (witness): on dataset A at date 5 all seven formation returns are
distinct and the maximum rank is 7, the number of ranked instruments. -/
theorem C7_amended_w :
    maxRankTable 5 exAC 5 = some ((definedCnt (formRow 5 exAC 5) : ℚ)) :=
  C7_amended 5 exAC 5 (by decide) (by decide)

/-- C7 (counterexample): on dataset B at date 5 two instruments are ranked
but both share the average rank `3/2`, so the row maximum is `3/2`, not the
count `2`. -/
theorem C7_cex :
    definedCnt (formRow 5 exTie 5) = 2 ∧
      maxRankTable 5 exTie 5 = some (3 / 2) ∧ ((3 / 2 : ℚ)) ≠ ((2 : ℚ)) := by
  refine ⟨by decide, by decide, by norm_num⟩

/-- C8 (corrected): a constant-price instrument has a return of `0` wherever
the return is defined, but its premium equals the negated risk-free rate
wherever the premium is defined — it is zero only where the risk-free rate
is zero. -/
theorem C8_amended (d : MarketData) (i : Fin d.N) (c : ℚ)
    (hc : ∀ t, t < d.T → d.price i t = some c) :
    (∀ t, t < d.T → ∀ r, stock_rets d i t = some r → r = 0) ∧
    (∀ t, t < d.T → ∀ q, stock_premium d i t = some q →
      ∃ y, d.rf t = some y ∧ q = -y) := by
  have hret : ∀ t, t < d.T → ∀ r, stock_rets d i t = some r → r = 0 := by
    intro t ht r h
    by_cases h0 : t = 0
    · have hz : stock_rets d i t = none := by
        unfold stock_rets pctChange
        rw [if_pos h0]
      rw [hz] at h
      exact Option.noConfusion h
    · have hval : stock_rets d i t = if c = 0 then none else some (c / c - 1) := by
        unfold stock_rets pctChange
        rw [if_neg h0, hc (t - 1) (by omega), hc t ht]
      rw [hval] at h
      by_cases hcz : c = 0
      · rw [if_pos hcz] at h
        exact Option.noConfusion h
      · rw [if_neg hcz] at h
        have hcr : c / c - 1 = r := Option.some.inj h
        rw [← hcr, div_self hcz]
        ring
  refine ⟨hret, ?_⟩
  intro t ht q h
  unfold stock_premium at h
  revert h
  cases hs : stock_rets d i t with
  | none =>
    intro h
    exact Option.noConfusion h
  | some rv =>
    cases hr : d.rf t with
    | none =>
      intro h
      exact Option.noConfusion h
    | some y =>
      intro h
      have hq : rv - y = q := Option.some.inj h
      have hz := hret t ht rv hs
      refine ⟨y, rfl, ?_⟩
      rw [← hq, hz]
      ring

/-- C8 (witness): the single instrument of dataset C has constant price `1`,
so its returns are `0` and its premiums are the negated risk-free rates. -/
theorem C8_amended_w :
    (∀ t, t < exRf.T → ∀ r, stock_rets exRf rf0 t = some r → r = 0) ∧
      (∀ t, t < exRf.T → ∀ q, stock_premium exRf rf0 t = some q →
        ∃ y, exRf.rf t = some y ∧ q = -y) :=
  C8_amended exRf rf0 1 (fun _ _ => rfl)

/-- C8 (counterexample): the instrument of dataset C has constant price `1`
over the whole index, yet its premium on date 1 is `-1/10` (the negated
risk-free rate), not `0` — the premium series of a constant-price instrument
is not identically zero where defined. -/
theorem C8_cex :
    (∀ t, t < exRf.T → exRf.price rf0 t = some 1) ∧
      stock_premium exRf rf0 1 = some (-(1 / 10)) ∧ (-(1 / 10) : ℚ) ≠ 0 := by
  refine ⟨fun _ _ => rfl, by decide, by norm_num⟩

/-- C9 (confirmed): whenever the market-premium mean is present, the
`snp avg rets` column carries that same value in all 9 rows and the
`port diff` column is exactly `port avg rets` minus `snp avg rets`. -/
theorem C9_perform (d : MarketData) (i : Fin 9) (m : ℚ)
    (h : marketMean d = some m) :
    portDiff d i = some (portAvg d i - m) ∧ ∀ j : Fin 9, snpCol d j = some m := by
  constructor
  · unfold portDiff snpCol
    rw [h]
    rfl
  · intro j
    unfold snpCol
    exact h

/-- C9 (witness): on dataset C the market-premium mean is `9/10`, so every
row's benchmark entry is `9/10` and the difference column subtracts it. -/
theorem C9_perform_w :
    portDiff exRf 0 = some (portAvg exRf 0 - 9 / 10) ∧
      ∀ j : Fin 9, snpCol exRf j = some (9 / 10) :=
  C9_perform exRf 0 (9 / 10) (by decide)

/-- C10 (confirmed): the daily return series is total — the row sums skip
missing holding returns — and any date on which every instrument selected by
the long or short mask has a missing holding return contributes exactly `0`,
never a missing value. -/
theorem C10_total (F H : ℕ) (d : MarketData) (t : ℕ)
    (h : ∀ i, (longMask F d t i = true ∨ shortMask F d t i = true) →
      hprRow H d t i = none) :
    dailyRet F H d t = 0 := by
  unfold dailyRet
  rw [rowSum_maskedRow, rowSum_maskedRow]
  have h1 : ∀ i ∈ Finset.univ.filter (fun i => longMask F d t i = true),
      (hprRow H d t i).getD 0 = 0 := by
    intro i hi
    rw [h i (Or.inl (Finset.mem_filter.mp hi).2)]
    rfl
  have h2 : ∀ i ∈ Finset.univ.filter (fun i => shortMask F d t i = true),
      (hprRow H d t i).getD 0 = 0 := by
    intro i hi
    rw [h i (Or.inr (Finset.mem_filter.mp hi).2)]
    rfl
  rw [Finset.sum_eq_zero h1, Finset.sum_eq_zero h2]
  ring

/-- C10 (witness): on dataset A at date 10 — one of the last `H` dates —
every holding return is missing, yet the daily return is `0`. -/
theorem C10_total_w : dailyRet 5 5 exAC 10 = 0 :=
  C10_total 5 5 exAC 10 (by decide)
